import Mathlib

/-!
Verification of the Codeforces-Stats-Analyzer core against its
natural-language specification.  The Python source is shallowly embedded:
dict-shaped remote records become structures with optional fields, the
insertion-ordered Python dicts become association lists, the paged fetch
generator becomes a fuel-indexed loop returning the emitted submissions
together with the list of issued request offsets, and the aggregation in
`_fetch_thread` becomes a pure fold.
-/

set_option maxRecDepth 4000

namespace CFStats

/-- A JSON value stored in a problem's `rating` field, abstracted by how
Python's `float()` treats it: `num q` is a value that converts to the number
`q` (ratings are modelled as rationals, Python floats idealized), while `bad`
is any present value on which `float()` raises. -/
inductive RVal where
  | num (q : ℚ)
  | bad
deriving DecidableEq, Repr

/-- Result of `float(rating)` as the source computes it inside a
`try/except`: `none` when conversion raises. -/
def RVal.toNum : RVal → Option ℚ
  | .num q => some q
  | .bad => none

/-- The `problem` sub-dictionary of a remote submission record; every field
may be absent, matching the `dict.get` accesses in the source. -/
structure Problem where
  contestId : Option Int
  index : Option String
  name : Option String
  tags : List String
  rating : Option RVal
deriving DecidableEq, Repr

/-- A remote submission record, with the three fields the core reads. -/
structure Submission where
  creationTimeSeconds : Option Int
  verdict : Option String
  problem : Option Problem
deriving DecidableEq, Repr

/-- The empty dict that `s.get("problem", {})` falls back to. -/
def emptyProblem : Problem := ⟨none, none, none, [], none⟩

/-- Embeds `s.get("problem", {})`. -/
def Submission.prob (s : Submission) : Problem := s.problem.getD emptyProblem

/-- Embeds `int(s.get("creationTimeSeconds", 0))`. -/
def Submission.ts (s : Submission) : Int := s.creationTimeSeconds.getD 0

/-- Embeds the filter `s.get("verdict") != "OK"` (true means kept). -/
def Submission.isOK (s : Submission) : Bool := s.verdict == some "OK"

/-- Problem-identity key: `f"{contestId}-{index}"` when `contestId` is not
None and `index` is truthy, else `"nopid-" + p.get("name", "unknown")`. -/
def Problem.key (p : Problem) : String :=
  match p.contestId, p.index with
  | some cid, some idx =>
      if idx ≠ "" then toString cid ++ "-" ++ idx
      else "nopid-" ++ p.name.getD "unknown"
  | _, _ => "nopid-" ++ p.name.getD "unknown"

/-- Key of a submission, via its (possibly defaulted) problem dict. -/
def Submission.key (s : Submission) : String := s.prob.key

/-- The tuple `(ts, p.get("tags", []), p.get("name", ""), p.get("rating"))`
stored in `solved[key]`. -/
structure SolvedRecord where
  ts : Int
  tags : List String
  name : String
  rating : Option RVal
deriving DecidableEq, Repr

/-- The record a submission would store. -/
def Submission.entry (s : Submission) : SolvedRecord :=
  ⟨s.ts, s.prob.tags, s.prob.name.getD "", s.prob.rating⟩

/-- Insertion-ordered association list standing for a Python dict from
problem keys to solved records. -/
abbrev SolvedMap := List (String × SolvedRecord)

/-- Dict lookup `solved.get(key)`. -/
def lookupA (m : SolvedMap) (k : String) : Option SolvedRecord :=
  match m with
  | [] => none
  | (k', v) :: rest => if k' = k then some v else lookupA rest k

/-- Dict assignment `solved[key] = v`: replace in place when the key exists,
append otherwise (Python dicts preserve insertion order). -/
def insertA (m : SolvedMap) (k : String) (v : SolvedRecord) : SolvedMap :=
  match m with
  | [] => [(k, v)]
  | (k', v') :: rest =>
      if k' = k then (k', v) :: rest else (k', v') :: insertA rest k v

/-- One iteration of the loop body of `collect_first_ac_per_problem`. -/
def cfStep (m : SolvedMap) (s : Submission) : SolvedMap :=
  if s.isOK then
    match lookupA m s.key with
    | none => insertA m s.key s.entry
    | some r => if s.ts < r.ts then insertA m s.key s.entry else m
  else m

/-- Embeds `collect_first_ac_per_problem` (source lines 101-114). -/
def collect_first_ac_per_problem (l : List Submission) : SolvedMap :=
  l.foldl cfStep []

/-- Specification-side reduction of the candidates for one key: keep the
record whose timestamp is strictly smaller, first occurrence winning ties. -/
def keepMin (acc : Option SolvedRecord) (e : SolvedRecord) : Option SolvedRecord :=
  match acc with
  | none => some e
  | some c => if e.ts < c.ts then some e else some c

/-- The entries of the OK submissions of `l` whose key is `k`, in stream
order. -/
def candidates (l : List Submission) (k : String) : List SolvedRecord :=
  (l.filter (fun s => s.isOK && decide (s.key = k))).map Submission.entry

theorem lookupA_insertA_self (m : SolvedMap) (k : String) (v : SolvedRecord) :
    lookupA (insertA m k v) k = some v := by
  induction m with
  | nil => simp [insertA, lookupA]
  | cons hd tl ih =>
      obtain ⟨k', v'⟩ := hd
      by_cases h : k' = k
      · simp [insertA, lookupA, h]
      · simp [insertA, lookupA, h, ih]

theorem lookupA_insertA_ne (m : SolvedMap) (k k' : String) (v : SolvedRecord)
    (h : k' ≠ k) : lookupA (insertA m k v) k' = lookupA m k' := by
  have hkk : ¬ k = k' := fun hh => h hh.symm
  induction m with
  | nil => simp [insertA, lookupA, hkk]
  | cons hd tl ih =>
      obtain ⟨k₀, v₀⟩ := hd
      by_cases h0 : k₀ = k
      · subst h0
        simp [insertA, lookupA, hkk]
      · simp only [insertA, if_neg h0, lookupA]
        by_cases h1 : k₀ = k'
        · simp [h1]
        · simp [h1, ih]

theorem Submission.entry_ts (s : Submission) : s.entry.ts = s.ts := rfl

theorem lookupA_cfStep (m : SolvedMap) (s : Submission) (k : String) :
    lookupA (cfStep m s) k =
      if s.isOK && decide (s.key = k) then keepMin (lookupA m k) s.entry
      else lookupA m k := by
  by_cases hok : s.isOK
  · by_cases hk : s.key = k
    · subst hk
      simp only [cfStep, hok, keepMin, Bool.true_and, decide_eq_true_eq,
        if_pos rfl]
      cases h : lookupA m s.key with
      | none => simp [lookupA_insertA_self]
      | some r =>
          by_cases hlt : s.ts < r.ts
          · simp [hlt, lookupA_insertA_self, Submission.entry_ts]
          · simp [hlt, h, Submission.entry_ts]
    · have hne : k ≠ s.key := fun hh => hk hh.symm
      simp only [cfStep, hok]
      cases h : lookupA m s.key with
      | none => simp [hk, lookupA_insertA_ne _ _ _ _ hne]
      | some r =>
          by_cases hlt : s.ts < r.ts
          · simp [hk, hlt, lookupA_insertA_ne _ _ _ _ hne]
          · simp [hk, hlt]
  · simp [cfStep, hok]

theorem lookupA_foldl_cfStep (l : List Submission) (m : SolvedMap) (k : String) :
    lookupA (l.foldl cfStep m) k = (candidates l k).foldl keepMin (lookupA m k) := by
  induction l generalizing m with
  | nil => simp [candidates]
  | cons s tl ih =>
      simp only [List.foldl_cons, candidates, List.filter_cons]
      by_cases h : s.isOK && decide (s.key = k)
      · simp only [h, if_true, List.map_cons, List.foldl_cons]
        rw [ih]
        congr 1
        rw [lookupA_cfStep, if_pos h]
      · simp only [h, if_false, Bool.false_eq_true]
        rw [ih]
        congr 1
        rw [lookupA_cfStep, if_neg]
        simp only [h, Bool.false_eq_true, not_false_iff]

/-- The reducer's lookup at any key is the `keepMin` fold of that key's
candidate entries. -/
theorem lookup_collect (l : List Submission) (k : String) :
    lookupA (collect_first_ac_per_problem l) k =
      (candidates l k).foldl keepMin none := by
  have h := lookupA_foldl_cfStep l [] k
  simpa [collect_first_ac_per_problem, lookupA] using h

theorem foldl_keepMin_some (es : List SolvedRecord) (acc : Option SolvedRecord)
    (r : SolvedRecord) (h : es.foldl keepMin acc = some r) :
    (acc = some r ∨ r ∈ es) ∧ (∀ e ∈ es, r.ts ≤ e.ts) ∧
      (∀ c, acc = some c → r.ts ≤ c.ts) := by
  induction es generalizing acc with
  | nil =>
      refine ⟨Or.inl h, by simp, ?_⟩
      intro c hc
      rw [hc] at h
      cases h
      exact le_refl _
  | cons e tl ih =>
      simp only [List.foldl_cons] at h
      obtain ⟨hmem, hle, hacc⟩ := ih (keepMin acc e) h
      cases acc with
      | none =>
          have hk : keepMin none e = some e := rfl
          rw [hk] at hmem hacc
          have hre : r.ts ≤ e.ts := hacc e rfl
          refine ⟨?_, ?_, ?_⟩
          · rcases hmem with hh | hh
            · cases hh; exact Or.inr (by simp)
            · exact Or.inr (List.mem_cons_of_mem _ hh)
          · intro x hx
            rcases List.mem_cons.mp hx with hx | hx
            · exact hx ▸ hre
            · exact hle x hx
          · intro c hc; cases hc
      | some c =>
          by_cases hlt : e.ts < c.ts
          · have hk : keepMin (some c) e = some e := by simp [keepMin, hlt]
            rw [hk] at hmem hacc
            have hre : r.ts ≤ e.ts := hacc e rfl
            refine ⟨?_, ?_, ?_⟩
            · rcases hmem with hh | hh
              · cases hh; exact Or.inr (by simp)
              · exact Or.inr (List.mem_cons_of_mem _ hh)
            · intro x hx
              rcases List.mem_cons.mp hx with hx | hx
              · exact hx ▸ hre
              · exact hle x hx
            · intro c' hc'
              cases hc'
              exact le_of_lt (lt_of_le_of_lt hre hlt)
          · have hk : keepMin (some c) e = some c := by simp [keepMin, hlt]
            rw [hk] at hmem hacc
            have hrc : r.ts ≤ c.ts := hacc c rfl
            refine ⟨?_, ?_, ?_⟩
            · rcases hmem with hh | hh
              · exact Or.inl hh
              · exact Or.inr (List.mem_cons_of_mem _ hh)
            · intro x hx
              rcases List.mem_cons.mp hx with hx | hx
              · exact hx ▸ le_trans hrc (le_of_not_lt hlt)
              · exact hle x hx
            · intro c' hc'
              cases hc'
              exact hrc

theorem foldl_keepMin_eq_none (es : List SolvedRecord) :
    es.foldl keepMin none = none ↔ es = [] := by
  constructor
  · intro h
    cases es with
    | nil => rfl
    | cons e tl =>
        exfalso
        have hs : ∀ (l : List SolvedRecord) (c : SolvedRecord),
            l.foldl keepMin (some c) ≠ none := by
          intro l
          induction l with
          | nil => intro c hc; cases hc
          | cons x xs ih =>
              intro c
              simp only [List.foldl_cons, keepMin]
              by_cases hlt : x.ts < c.ts
              · simp only [hlt, if_true]; exact ih x
              · simp only [hlt, if_false]; exact ih c
        simp only [List.foldl_cons] at h
        exact hs tl e h
  · intro h; subst h; rfl

/-! ### Paged fetch loop (`fetch_submissions_in_period`, source lines 54-99) -/

/-- The window filter inside the page scan: skip when `from_ts` is set and
`ts < from_ts`, or `to_ts` is set and `ts > to_ts`; emitted otherwise. -/
def inWindow (fromTs toTs : Option Int) (s : Submission) : Bool :=
  (match fromTs with
   | some f => decide (f ≤ s.ts)
   | none => true)
  &&
  (match toTs with
   | some t => decide (s.ts ≤ t)
   | none => true)

/-- The `oldest_ts_in_page` accumulator: minimum of `Submission.ts` over the
page in scan order, `none` for an empty page. -/
def pageOldest (page : List Submission) : Option Int :=
  page.foldl
    (fun acc s =>
      match acc with
      | none => some s.ts
      | some o => if s.ts < o then some s.ts else some o)
    none

/-- The early-stop test after a page: `oldest_ts_in_page is not None and
from_ts is not None and oldest_ts_in_page < from_ts`. -/
def stopEarly (fromTs : Option Int) (page : List Submission) : Bool :=
  match pageOldest page, fromTs with
  | some o, some f => decide (o < f)
  | _, _ => false

/-- The fetch loop. `src` maps a 1-based start offset to the page the remote
service returns for it; the fuel argument is the remaining request budget
(`max_requests - requests_made`). The result is the list of emitted
submissions together with the list of start offsets actually requested. -/
def fetchLoop (src : Nat → List Submission) (fromTs toTs : Option Int) :
    Nat → Nat → List Submission × List Nat
  | 0, _ => ([], [])
  | n + 1, startIdx =>
      let page := src startIdx
      if page.isEmpty then ([], [startIdx])
      else
        let em := page.filter (inWindow fromTs toTs)
        if stopEarly fromTs page then (em, [startIdx])
        else
          let rest := fetchLoop src fromTs toTs n (startIdx + page.length)
          (em ++ rest.1, startIdx :: rest.2)

/-- Default of the `max_requests` parameter in the signature of
`fetch_submissions_in_period` (source line 54). -/
def defaultMaxRequests : Nat := 100

/-- The `max_requests` value the GUI fetch thread passes at the single call
site (source line 241). -/
def fetchThreadMaxRequests : Nat := 200

/-- The guard `dt_from and dt_to and dt_from > dt_to` (source line 55). -/
def rangeInvalid (fromTs toTs : Option Int) : Bool :=
  match fromTs, toTs with
  | some f, some t => decide (f > t)
  | _, _ => false

/-- Embeds `fetch_submissions_in_period`: validate the window, then run the
paged loop from offset 1. Timestamps of the resolved window bounds are
epoch seconds (`none` when the corresponding datetime is `None`). -/
def fetch_submissions_in_period (src : Nat → List Submission)
    (fromTs toTs : Option Int) (maxRequests : Nat) :
    Except String (List Submission × List Nat) :=
  if rangeInvalid fromTs toTs then .error "From date must be <= To date"
  else .ok (fetchLoop src fromTs toTs maxRequests 1)

/-- A page whose oldest timestamp is older than the `from` bound is the
last page processed: its in-window submissions are emitted, and no further
request is issued. -/
theorem fetchLoop_stop (src : Nat → List Submission) (fromTs toTs : Option Int)
    (n startIdx : Nat) (hne : (src startIdx).isEmpty = false)
    (hstop : stopEarly fromTs (src startIdx) = true) :
    fetchLoop src fromTs toTs (n + 1) startIdx =
      ((src startIdx).filter (inWindow fromTs toTs), [startIdx]) := by
  simp only [fetchLoop, hne, hstop, Bool.false_eq_true, if_false, if_true]

/-- The loop issues at most as many requests as it has budget. -/
theorem fetchLoop_requests_le (src : Nat → List Submission)
    (fromTs toTs : Option Int) :
    ∀ (n startIdx : Nat), (fetchLoop src fromTs toTs n startIdx).2.length ≤ n := by
  intro n
  induction n with
  | zero => intro s; simp [fetchLoop]
  | succ n ih =>
      intro startIdx
      simp only [fetchLoop]
      by_cases hemp : (src startIdx).isEmpty
      · simp [hemp]
      · by_cases hstop : stopEarly fromTs (src startIdx)
        · simp [hemp, hstop]
        · simp only [hemp, hstop, Bool.false_eq_true, if_false,
            List.length_cons]
          exact Nat.succ_le_succ (ih _)

/-! ### Date window resolution (`parse_date_maybe` lines 21-38, `start_fetch`
lines 214-227) -/

/-- A UTC wall-clock instant, the shape of the `datetime` values the source
manipulates (all values the core builds are timezone-aware UTC). -/
structure DateTimeUTC where
  year : Nat
  month : Nat
  day : Nat
  hour : Nat
  minute : Nat
  second : Nat
deriving DecidableEq, Repr

def isLeap (y : Nat) : Bool := (y % 4 == 0 && y % 100 != 0) || (y % 400 == 0)

def daysInMonth (y m : Nat) : Nat :=
  if m = 2 then (if isLeap y then 29 else 28)
  else if m = 4 ∨ m = 6 ∨ m = 9 ∨ m = 11 then 30
  else 31

/-- Python `str.strip()` on a character list: whitespace removed from both
ends (implemented structurally so that it evaluates inside the kernel). -/
def stripChars (cs : List Char) : List Char :=
  ((cs.dropWhile Char.isWhitespace).reverse.dropWhile Char.isWhitespace).reverse

/-- Python `s.split("-")` on a character list. -/
def splitOnDash : List Char → List (List Char)
  | [] => [[]]
  | c :: rest =>
      match splitOnDash rest with
      | [] => if c = '-' then [[], []] else [[c]]
      | g :: gs => if c = '-' then [] :: g :: gs else (c :: g) :: gs

/-- Digit-string to number, `none` when empty or not all digits. -/
def digitsToNat (cs : List Char) : Option Nat :=
  if cs ≠ [] ∧ cs.all Char.isDigit then
    some (cs.foldl (fun a c => a * 10 + (c.toNat - 48)) 0)
  else none

/-- Validation of a year-month-day triple of digit groups as
`datetime.strptime(s, "%Y-%m-%d")` performs it (widths 4-2-2, month and
day ranges checked, Python years start at 1). -/
def parseDateFields (ys ms ds : List Char) : Option DateTimeUTC :=
  if ys.length = 4 ∧ ms.length = 2 ∧ ds.length = 2 then
    match digitsToNat ys, digitsToNat ms, digitsToNat ds with
    | some y, some m, some d =>
        if 1 ≤ y ∧ 1 ≤ m ∧ m ≤ 12 ∧ 1 ≤ d ∧ d ≤ daysInMonth y m then
          some ⟨y, m, d, 0, 0, 0⟩
        else none
    | _, _, _ => none
  else none

/-- Embeds `datetime.strptime(s, "%Y-%m-%d")` followed by
`replace(tzinfo=timezone.utc)`: a bare calendar date at UTC midnight. -/
def strptimeYMD (cs : List Char) : Option DateTimeUTC :=
  match splitOnDash cs with
  | [ys, ms, ds] => parseDateFields ys ms ds
  | _ => none

def twoDigits (a b : Char) : Option Nat :=
  if a.isDigit && b.isDigit then
    some ((a.toNat - 48) * 10 + (b.toNat - 48))
  else none

/-- Model of Python `datetime.fromisoformat`, restricted to the naive
extended forms: `YYYY-MM-DD`, optionally followed by a `T` or space
separator and `HH:MM` or `HH:MM:SS`. Timezone offsets and fractional
seconds are outside the model (the source converts aware values to UTC;
no claim exercises them). -/
def pyFromIso (cs : List Char) : Option DateTimeUTC := do
  let date ← strptimeYMD (cs.take 10)
  match cs.drop 10 with
  | [] => pure date
  | sep :: time =>
      if sep = 'T' ∨ sep = ' ' then
        match time with
        | [h1, h2, ':', m1, m2] => do
            let h ← twoDigits h1 h2
            let mi ← twoDigits m1 m2
            if h ≤ 23 ∧ mi ≤ 59 then
              pure ⟨date.year, date.month, date.day, h, mi, 0⟩
            else none
        | [h1, h2, ':', m1, m2, ':', s1, s2] => do
            let h ← twoDigits h1 h2
            let mi ← twoDigits m1 m2
            let se ← twoDigits s1 s2
            if h ≤ 23 ∧ mi ≤ 59 ∧ se ≤ 59 then
              pure ⟨date.year, date.month, date.day, h, mi, se⟩
            else none
        | _ => none
      else none

def countDash (cs : List Char) : Nat := (cs.filter (fun c => c == '-')).length

def pyDateErr : String := "Date must be YYYY-MM-DD or ISO datetime"

/-- Embeds `parse_date_maybe`: empty (stripped) input resolves to `none`; a
stripped length-10 string with exactly two dashes goes through
`strptime("%Y-%m-%d")` and becomes UTC midnight; anything else goes through
`fromisoformat`; any parse failure raises `ValueError(pyDateErr)`. -/
def parse_date_maybe (s : String) : Except String (Option DateTimeUTC) :=
  if stripChars s.data = [] then .ok none
  else if (stripChars s.data).length = 10 ∧ countDash (stripChars s.data) = 2 then
    match strptimeYMD (stripChars s.data) with
    | some dt => .ok (some dt)
    | none => .error pyDateErr
  else
    match pyFromIso (stripChars s.data) with
    | some dt => .ok (some dt)
    | none => .error pyDateErr

/-- The end-of-day widening in `start_fetch` (source lines 226-227): a `to`
value at exactly midnight whose raw input strips to length 10 is moved to
23:59:59 of the same day. -/
def endOfDayAdjust (toRaw : String) (dt : DateTimeUTC) : DateTimeUTC :=
  if dt.hour = 0 ∧ dt.minute = 0 ∧ dt.second = 0
      ∧ (stripChars toRaw.data).length = 10 then
    ⟨dt.year, dt.month, dt.day, 23, 59, 59⟩
  else dt

/-- The date-resolution slice of `start_fetch` for the case where both
fields are supplied: parse both strings, then apply the end-of-day widening
to the `to` value. The `now`-defaults taken when a field is empty are
outside the model (they depend on the wall clock). -/
def resolveWindowGiven (fromRaw toRaw : String) :
    Except String (Option DateTimeUTC × Option DateTimeUTC) := do
  let f ← parse_date_maybe fromRaw
  let tOpt ← parse_date_maybe toRaw
  pure (f, tOpt.map (endOfDayAdjust toRaw))

/-! ### Tag aggregation (`_fetch_thread`, source lines 244-291) -/

/-- The three aggregation accumulators of `_fetch_thread`: `tag_counts`,
`tag_ratings` and `all_ratings`, the dicts as insertion-ordered association
lists. -/
structure AggState where
  tagCounts : List (String × Nat)
  tagRatings : List (String × List ℚ)
  allRatings : List ℚ
deriving DecidableEq, Repr

/-- Embeds `tag_counts[tag] = tag_counts.get(tag, 0) + 1`. -/
def bumpCount (m : List (String × Nat)) (t : String) : List (String × Nat) :=
  match m with
  | [] => [(t, 1)]
  | (k, c) :: rest =>
      if k = t then (k, c + 1) :: rest else (k, c) :: bumpCount rest t

/-- Embeds `tag_ratings.setdefault(tag, []).append(q)`. -/
def appendRating (m : List (String × List ℚ)) (t : String) (q : ℚ) :
    List (String × List ℚ) :=
  match m with
  | [] => [(t, [q])]
  | (k, l) :: rest =>
      if k = t then (k, l ++ [q]) :: rest else (k, l) :: appendRating rest t q

/-- The per-record `rating_val`: `float(rating)` inside `try/except`,
`None` when the field is absent or the conversion raises. -/
def ratingValOf (r : SolvedRecord) : Option ℚ :=
  match r.rating with
  | none => none
  | some v => v.toNum

/-- Effect of one record on `tag_counts` (the inner tag loop updates
`tag_counts` and `tag_ratings` independently, so the interleaved loop is
split into one fold per dict). -/
def countsStep (c : List (String × Nat)) (r : SolvedRecord) :
    List (String × Nat) :=
  r.tags.foldl bumpCount c

/-- Effect of one record on `tag_ratings`. -/
def ratingsStep (m : List (String × List ℚ)) (r : SolvedRecord) :
    List (String × List ℚ) :=
  match ratingValOf r with
  | some q => r.tags.foldl (fun acc t => appendRating acc t q) m
  | none => m

/-- Effect of one record on `all_ratings`. -/
def allStep (l : List ℚ) (r : SolvedRecord) : List ℚ :=
  match ratingValOf r with
  | some q => l ++ [q]
  | none => l

/-- One iteration of the aggregation loop over `solved_map.values()`. -/
def aggStep (st : AggState) (r : SolvedRecord) : AggState :=
  ⟨countsStep st.tagCounts r, ratingsStep st.tagRatings r,
    allStep st.allRatings r⟩

/-- The whole aggregation loop of `_fetch_thread` (source lines 244-261). -/
def aggregate (records : List SolvedRecord) : AggState :=
  records.foldl aggStep ⟨[], [], []⟩

/-- Embeds `tag_ratings.get(tag, [])`. -/
def lookupRatings (m : List (String × List ℚ)) (t : String) : List ℚ :=
  match m with
  | [] => []
  | (k, l) :: rest => if k = t then l else lookupRatings rest t

/-- Lookup in `tag_counts` with default 0. -/
def lookupCount (m : List (String × Nat)) (t : String) : Nat :=
  match m with
  | [] => 0
  | (k, c) :: rest => if k = t then c else lookupCount rest t

/-- Rational addition written through `mkRat` so that it evaluates inside
the kernel (the library's `Rat.add` is sealed); `ratAdd_eq_add` below
certifies it is ordinary addition. -/
def ratAdd (a b : ℚ) : ℚ :=
  mkRat (a.num * (b.den : Int) + b.num * (a.den : Int)) (a.den * b.den)

/-- Division of a rational by a natural number, through `mkRat`;
`ratDivNat_eq_div` below certifies it. -/
def ratDivNat (a : ℚ) (n : Nat) : ℚ := mkRat a.num (a.den * n)

/-- Multiplication by ten, through `mkRat`; `ratMulTen_eq_mul` below
certifies it. -/
def ratMulTen (a : ℚ) : ℚ := mkRat (a.num * 10) a.den

/-- Python `int()` on a number: truncation toward zero. -/
def pyTrunc (q : ℚ) : Int :=
  if q < 0 then -(Rat.floor (Rat.neg q)) else Rat.floor q

/-- Python `min` over a nonempty list: keep the current value unless the
next one is strictly smaller. -/
def listMin : List ℚ → Option ℚ
  | [] => none
  | x :: xs => some (xs.foldl (fun cur y => if y < cur then y else cur) x)

/-- Python `max` over a nonempty list. -/
def listMax : List ℚ → Option ℚ
  | [] => none
  | x :: xs => some (xs.foldl (fun cur y => if cur < y then y else cur) x)

/-- Python `sum` over a rating list. -/
def listSum (l : List ℚ) : ℚ := l.foldl ratAdd 0

/-- Python `round` to the nearest integer, halves to even. With
`f = floor q`, the fractional part `q - f = (q.num - f*q.den)/q.den` is
compared against 1/2 by comparing `2*(q.num - f*q.den)` against `q.den`;
`pyRoundInt_spec` below restates this over ℚ. -/
def pyRoundInt (q : ℚ) : Int :=
  let f := Rat.floor q
  let nr := q.num - f * (q.den : Int)
  if 2 * nr < (q.den : Int) then f
  else if (q.den : Int) < 2 * nr then f + 1
  else if f % 2 = 0 then f else f + 1

/-- Python `round(x, 1)`: round `10*x` to the nearest integer (halves to
even) and divide by ten. -/
def pyRound1 (q : ℚ) : ℚ := mkRat (pyRoundInt (ratMulTen q)) 10

/-- One line of the tag report, structured: `tag` and `count` always
present, the three statistics `none` exactly where the source prints
"N/A". -/
structure TagLine where
  tag : String
  count : Nat
  minR : Option Int
  maxR : Option Int
  avgR : Option ℚ
deriving DecidableEq, Repr

/-- Builds one report line from a `tag_counts` item (source lines
274-282): with a nonempty rating list report `int(min)`, `int(max)` and
`round(mean, 1)`, otherwise all three are unavailable. -/
def tagLineFor (rats : List (String × List ℚ)) (tc : String × Nat) : TagLine :=
  let rlist := lookupRatings rats tc.1
  match listMin rlist, listMax rlist with
  | some mn, some mx =>
      ⟨tc.1, tc.2, some (pyTrunc mn), some (pyTrunc mx),
        some (pyRound1 (ratDivNat (listSum rlist) rlist.length))⟩
  | _, _ => ⟨tc.1, tc.2, none, none, none⟩

/-- The display order `sorted(tag_counts.items(), key=lambda x: (-x[1],
x[0]))`: larger count first, ties by ascending tag name. -/
def tagOrder (a b : String × Nat) : Prop :=
  b.2 < a.2 ∨ (a.2 = b.2 ∧ a.1 ≤ b.1)

instance tagOrder.decRel : DecidableRel tagOrder := fun a b => by
  unfold tagOrder; infer_instance

instance tagOrder.isTotal : IsTotal (String × Nat) tagOrder := by
  constructor
  intro a b
  rcases lt_trichotomy a.2 b.2 with h | h | h
  · exact Or.inr (Or.inl h)
  · rcases le_total a.1 b.1 with hs | hs
    · exact Or.inl (Or.inr ⟨h, hs⟩)
    · exact Or.inr (Or.inr ⟨h.symm, hs⟩)
  · exact Or.inl (Or.inl h)

instance tagOrder.isTrans : IsTrans (String × Nat) tagOrder := by
  constructor
  intro a b c hab hbc
  rcases hab with h1 | ⟨h1, h1'⟩
  · rcases hbc with h2 | ⟨h2, _⟩
    · exact Or.inl (h2.trans h1)
    · exact Or.inl (h2 ▸ h1)
  · rcases hbc with h2 | ⟨h2, h2'⟩
    · exact Or.inl (lt_of_lt_of_le h2 (le_of_eq h1.symm))
    · exact Or.inr ⟨h1.trans h2, le_trans h1' h2'⟩

/-- The sort of the tag-count items for display. -/
def sortTagCounts (m : List (String × Nat)) : List (String × Nat) :=
  m.insertionSort tagOrder

/-- The tag report of `_fetch_thread` (source lines 272-284). -/
def tag_report (records : List SolvedRecord) : List TagLine :=
  let st := aggregate records
  (sortTagCounts st.tagCounts).map (tagLineFor st.tagRatings)

/-- The mean statistic of a rating list as the report shows it:
unavailable for an empty list, `round(sum/len, 1)` otherwise. -/
def meanNA (rl : List ℚ) : Option ℚ :=
  match rl with
  | [] => none
  | _ => some (pyRound1 (ratDivNat (listSum rl) rl.length))

/-! ### The `mkRat`-based arithmetic agrees with the field operations -/

theorem mkRat_eq_div_cast (n : Int) (d : Nat) :
    mkRat n d = (n : ℚ) / (d : ℚ) := by
  rw [Rat.mkRat_eq_divInt, Rat.divInt_eq_div]
  push_cast
  rfl

theorem ratAdd_eq_add (a b : ℚ) : ratAdd a b = a + b := by
  have ha : ((a.den : ℚ)) ≠ 0 := by exact_mod_cast a.den_nz
  have hb : ((b.den : ℚ)) ≠ 0 := by exact_mod_cast b.den_nz
  unfold ratAdd
  rw [mkRat_eq_div_cast]
  conv_rhs => rw [← Rat.num_div_den a, ← Rat.num_div_den b]
  rw [div_add_div _ _ ha hb]
  push_cast
  ring_nf

theorem ratDivNat_eq_div (a : ℚ) (n : Nat) : ratDivNat a n = a / (n : ℚ) := by
  have ha : ((a.den : ℚ)) ≠ 0 := by exact_mod_cast a.den_nz
  unfold ratDivNat
  rw [mkRat_eq_div_cast]
  rcases Nat.eq_zero_or_pos n with hn | hn
  · subst hn
    push_cast
    simp
  · have hnq : ((n : ℚ)) ≠ 0 := by
      exact_mod_cast Nat.pos_iff_ne_zero.mp hn
    conv_rhs => rw [← Rat.num_div_den a]
    rw [div_div]
    push_cast
    ring_nf

theorem ratMulTen_eq_mul (a : ℚ) : ratMulTen a = a * 10 := by
  have ha : ((a.den : ℚ)) ≠ 0 := by exact_mod_cast a.den_nz
  unfold ratMulTen
  rw [mkRat_eq_div_cast]
  conv_rhs => rw [← Rat.num_div_den a]
  push_cast
  ring_nf

theorem listSum_eq_sum (l : List ℚ) : listSum l = l.sum := by
  have h : ratAdd = fun a b : ℚ => a + b := by
    funext a b
    exact ratAdd_eq_add a b
  unfold listSum
  rw [h, ← List.sum_eq_foldl]

theorem pyTrunc_eq_floor (q : ℚ) :
    pyTrunc q = if q < 0 then -⌊-q⌋ else ⌊q⌋ := by
  have h1 : ∀ r : ℚ, Rat.floor r = ⌊r⌋ := fun r =>
    (Rat.floor_def' r).trans Rat.floor_def.symm
  have h2 : Rat.neg q = -q := rfl
  unfold pyTrunc
  rw [h2, h1, h1]

theorem pyRound1_eq (q : ℚ) :
    pyRound1 q = ((pyRoundInt (q * 10) : Int) : ℚ) / 10 := by
  unfold pyRound1
  rw [ratMulTen_eq_mul, mkRat_eq_div_cast]
  norm_num

/-- The integer-side comparisons in `pyRoundInt` implement the textbook
round-half-to-even over ℚ. -/
theorem pyRoundInt_spec (q : ℚ) :
    pyRoundInt q =
      if q - ⌊q⌋ < 1/2 then ⌊q⌋
      else if (1 : ℚ)/2 < q - ⌊q⌋ then ⌊q⌋ + 1
      else if ⌊q⌋ % 2 = 0 then ⌊q⌋ else ⌊q⌋ + 1 := by
  have hf : Rat.floor q = ⌊q⌋ := (Rat.floor_def' q).trans Rat.floor_def.symm
  have hden : (0 : ℚ) < (q.den : ℚ) := by exact_mod_cast q.den_pos
  have hq : q * (q.den : ℚ) = (q.num : ℚ) := by
    nth_rewrite 1 [← Rat.num_div_den q]
    rw [div_mul_cancel₀ _ (ne_of_gt hden)]
  have hkey : q - ⌊q⌋ = ((q.num - ⌊q⌋ * q.den : ℤ) : ℚ) / (q.den : ℚ) := by
    rw [eq_div_iff (ne_of_gt hden)]
    push_cast
    rw [sub_mul, hq]
  have h1 : (2 * (q.num - ⌊q⌋ * q.den) < (q.den : ℤ)) ↔ (q - ⌊q⌋ < 1/2) := by
    rw [hkey, div_lt_div_iff₀ hden (by norm_num : (0:ℚ) < 2), one_mul,
      mul_comm ((q.num - ⌊q⌋ * q.den : ℤ) : ℚ) 2]
    exact_mod_cast Iff.rfl
  have h2 : ((q.den : ℤ) < 2 * (q.num - ⌊q⌋ * q.den)) ↔ ((1 : ℚ)/2 < q - ⌊q⌋) := by
    rw [hkey, div_lt_div_iff₀ (by norm_num : (0:ℚ) < 2) hden, one_mul,
      mul_comm ((q.num - ⌊q⌋ * q.den : ℤ) : ℚ) 2]
    exact_mod_cast Iff.rfl
  show (if 2 * (q.num - Rat.floor q * q.den) < (q.den : Int) then Rat.floor q
      else if (q.den : Int) < 2 * (q.num - Rat.floor q * q.den) then Rat.floor q + 1
      else if Rat.floor q % 2 = 0 then Rat.floor q else Rat.floor q + 1) = _
  simp only [hf, h1, h2]

/-! ### The fetch thread's pure data path (`_fetch_thread`) -/

structure UserInfo where
  rating : Option Int
  maxRating : Option Int
deriving DecidableEq, Repr

/-- Output of one fetch-and-aggregate run: the solved map, the tag report,
and the two best-effort user-rating fields. -/
structure RunOutput where
  solved : SolvedMap
  report : List TagLine
  userRating : Option Int
  userMaxRating : Option Int
deriving Repr

/-- Modelled from the spec: `api_user_info` — the auxiliary `user.info`
lookup `_fetch_thread` invokes at source line 264 — is referenced but
nowhere defined in the repository; per the spec it is a best-effort remote
call retrieving the user's `rating` and `maxRating`. Its outcome is passed
in explicitly: `Except.ok` with the info on success, `Except.error` when
the call raises. The pure data path of `_fetch_thread` (source lines
237-315) then is: reduce the fetched submissions, build the tag report,
and read the auxiliary outcome inside its own `try/except` — a failed
lookup leaves both rating fields `None` and touches nothing else. -/
def fetchThreadRun (subs : List Submission) (uo : Except String UserInfo) :
    RunOutput :=
  let solved := collect_first_ac_per_problem subs
  let report := tag_report (solved.map Prod.snd)
  match uo with
  | .ok info => ⟨solved, report, info.rating, info.maxRating⟩
  | .error _ => ⟨solved, report, none, none⟩

/-! ### Supporting lemmas -/

theorem mem_candidates (l : List Submission) (k : String) (r : SolvedRecord) :
    r ∈ candidates l k ↔
      ∃ s ∈ l, s.isOK = true ∧ s.key = k ∧ s.entry = r := by
  simp only [candidates, List.mem_map, List.mem_filter, Bool.and_eq_true,
    decide_eq_true_eq]
  constructor
  · rintro ⟨s, ⟨hs, hok, hk⟩, he⟩
    exact ⟨s, hs, hok, hk, he⟩
  · rintro ⟨s, hs, hok, hk, he⟩
    exact ⟨s, ⟨hs, hok, hk⟩, he⟩

theorem candidates_eq_nil (l : List Submission) (k : String) :
    candidates l k = [] ↔ ∀ s ∈ l, ¬(s.isOK = true ∧ s.key = k) := by
  constructor
  · intro h s hs hsk
    have : s.entry ∈ candidates l k :=
      (mem_candidates _ _ _).mpr ⟨s, hs, hsk.1, hsk.2, rfl⟩
    rw [h] at this
    simp at this
  · intro h
    cases hc : candidates l k with
    | nil => rfl
    | cons e es =>
        exfalso
        have : e ∈ candidates l k := by rw [hc]; exact List.mem_cons_self _ _
        obtain ⟨s, hs, hok, hk, -⟩ := (mem_candidates _ _ _).mp this
        exact h s hs ⟨hok, hk⟩

theorem collect_filter_ok (l : List Submission) (m : SolvedMap) :
    (l.filter Submission.isOK).foldl cfStep m = l.foldl cfStep m := by
  induction l generalizing m with
  | nil => rfl
  | cons s tl ih =>
      by_cases h : s.isOK
      · simp only [List.filter_cons, h, if_true, List.foldl_cons]
        exact ih (cfStep m s)
      · have hid : cfStep m s = m := by
          simp [cfStep, h]
        simp only [List.filter_cons, h, Bool.false_eq_true, if_false,
          List.foldl_cons, hid]
        exact ih m

/-- Invariance of the `keepMin` fold under permutation, given that entries
with equal timestamps are equal. -/
theorem foldl_keepMin_perm (es es' : List SolvedRecord) (hp : es.Perm es')
    (hcoh : ∀ e ∈ es, ∀ e' ∈ es, e.ts = e'.ts → e = e') :
    es.foldl keepMin none = es'.foldl keepMin none := by
  cases hes : es with
  | nil =>
      rw [hes] at hp
      rw [hp.symm.eq_nil]
  | cons e tl =>
      rw [← hes]
      have hne : es ≠ [] := by rw [hes]; exact List.cons_ne_nil _ _
      have hne' : es' ≠ [] := by
        intro hh
        rw [hh] at hp
        exact hne hp.eq_nil
      cases hf : es.foldl keepMin none with
      | none => exact absurd ((foldl_keepMin_eq_none _).mp hf) hne
      | some r =>
          cases hf' : es'.foldl keepMin none with
          | none => exact absurd ((foldl_keepMin_eq_none _).mp hf') hne'
          | some r' =>
              obtain ⟨hmem, hle, -⟩ := foldl_keepMin_some _ _ _ hf
              obtain ⟨hmem', hle', -⟩ := foldl_keepMin_some _ _ _ hf'
              have hrmem : r ∈ es := by
                rcases hmem with hh | hh
                · simp at hh
                · exact hh
              have hrmem' : r' ∈ es := by
                rcases hmem' with hh | hh
                · simp at hh
                · exact hp.mem_iff.mpr hh
              have h1 : r.ts ≤ r'.ts := hle _ hrmem'
              have h2 : r'.ts ≤ r.ts := hle' _ (hp.mem_iff.mp hrmem)
              have : r = r' := hcoh r hrmem r' hrmem' (le_antisymm h1 h2)
              rw [this]

theorem pageOldest_fold_some (page : List Submission) (acc : Option Int)
    (m : Int)
    (h : page.foldl
        (fun acc s =>
          match acc with
          | none => some s.ts
          | some o => if s.ts < o then some s.ts else some o) acc = some m) :
    (acc = some m ∨ ∃ u ∈ page, u.ts = m) ∧ (∀ u ∈ page, m ≤ u.ts) ∧
      (∀ o, acc = some o → m ≤ o) := by
  induction page generalizing acc with
  | nil =>
      refine ⟨Or.inl h, by simp, ?_⟩
      intro o ho
      rw [ho] at h
      cases h
      exact le_refl _
  | cons u tl ih =>
      simp only [List.foldl_cons] at h
      cases acc with
      | none =>
          obtain ⟨hmem, hle, hacc⟩ := ih (some u.ts) h
          have hmu : m ≤ u.ts := hacc u.ts rfl
          refine ⟨?_, ?_, ?_⟩
          · rcases hmem with hh | ⟨w, hw, hwts⟩
            · exact Or.inr ⟨u, List.mem_cons_self _ _, Option.some.inj hh⟩
            · exact Or.inr ⟨w, List.mem_cons_of_mem _ hw, hwts⟩
          · intro w hw
            rcases List.mem_cons.mp hw with hh | hh
            · exact hh ▸ hmu
            · exact hle w hh
          · intro o ho; cases ho
      | some o =>
          by_cases hlt : u.ts < o
          · simp only [hlt, if_true] at h
            obtain ⟨hmem, hle, hacc⟩ := ih (some u.ts) h
            have hmu : m ≤ u.ts := hacc u.ts rfl
            refine ⟨?_, ?_, ?_⟩
            · rcases hmem with hh | ⟨w, hw, hwts⟩
              · exact Or.inr ⟨u, List.mem_cons_self _ _, Option.some.inj hh⟩
              · exact Or.inr ⟨w, List.mem_cons_of_mem _ hw, hwts⟩
            · intro w hw
              rcases List.mem_cons.mp hw with hh | hh
              · exact hh ▸ hmu
              · exact hle w hh
            · intro o' ho'
              cases ho'
              exact le_of_lt (lt_of_le_of_lt hmu hlt)
          · simp only [hlt, if_false] at h
            obtain ⟨hmem, hle, hacc⟩ := ih (some o) h
            have hmo : m ≤ o := hacc o rfl
            refine ⟨?_, ?_, ?_⟩
            · rcases hmem with hh | ⟨w, hw, hwts⟩
              · exact Or.inl hh
              · exact Or.inr ⟨w, List.mem_cons_of_mem _ hw, hwts⟩
            · intro w hw
              rcases List.mem_cons.mp hw with hh | hh
              · exact hh ▸ le_trans hmo (le_of_not_lt hlt)
              · exact hle w hh
            · intro o' ho'
              cases ho'
              exact hmo

theorem pageOldest_some (page : List Submission) (m : Int)
    (h : pageOldest page = some m) :
    (∃ u ∈ page, u.ts = m) ∧ ∀ u ∈ page, m ≤ u.ts := by
  obtain ⟨hmem, hle, -⟩ := pageOldest_fold_some page none m h
  refine ⟨?_, hle⟩
  rcases hmem with hh | hh
  · simp at hh
  · exact hh

theorem pageOldest_cons_isSome (u : Submission) (tl : List Submission) :
    (pageOldest (u :: tl)).isSome = true := by
  have hgen : ∀ (l : List Submission) (o : Int),
      (l.foldl
        (fun acc s =>
          match acc with
          | none => some s.ts
          | some o => if s.ts < o then some s.ts else some o) (some o)).isSome
        = true := by
    intro l
    induction l with
    | nil => intro o; rfl
    | cons x xs ih =>
        intro o
        simp only [List.foldl_cons]
        by_cases hlt : x.ts < o
        · simp only [hlt, if_true]; exact ih x.ts
        · simp only [hlt, if_false]; exact ih o
  simp only [pageOldest, List.foldl_cons]
  exact hgen tl u.ts

/-! ### Claim theorems -/

/-- C1: the mapping returned by `collect_first_ac_per_problem` has a key
exactly when some OK submission derives it, the stored timestamp is the
minimum `creationTimeSeconds` over the OK submissions with that key (it is
attained and is a lower bound), and non-OK submissions contribute nothing
(reducing the stream filtered to OK submissions gives the same map). -/
theorem c1_first_ac (l : List Submission) (k : String) :
    ((lookupA (collect_first_ac_per_problem l) k).isSome = true ↔
      ∃ s ∈ l, s.isOK = true ∧ s.key = k)
    ∧ (∀ r, lookupA (collect_first_ac_per_problem l) k = some r →
        (∃ s ∈ l, s.isOK = true ∧ s.key = k ∧ s.ts = r.ts)
        ∧ ∀ s ∈ l, s.isOK = true → s.key = k → r.ts ≤ s.ts)
    ∧ collect_first_ac_per_problem l =
        collect_first_ac_per_problem (l.filter Submission.isOK) := by
  refine ⟨?_, ?_, ?_⟩
  · rw [lookup_collect]
    constructor
    · intro h
      obtain ⟨r, hr⟩ := Option.isSome_iff_exists.mp h
      obtain ⟨hmem, -, -⟩ := foldl_keepMin_some _ _ _ hr
      rcases hmem with hh | hh
      · simp at hh
      · obtain ⟨s, hs, hok, hk, -⟩ := (mem_candidates _ _ _).mp hh
        exact ⟨s, hs, hok, hk⟩
    · rintro ⟨s, hs, hok, hk⟩
      cases hfold : (candidates l k).foldl keepMin none with
      | some r => rfl
      | none =>
          exfalso
          have hnil : candidates l k = [] := (foldl_keepMin_eq_none _).mp hfold
          have hmem : s.entry ∈ candidates l k :=
            (mem_candidates _ _ _).mpr ⟨s, hs, hok, hk, rfl⟩
          rw [hnil] at hmem
          simp at hmem
  · intro r hr
    rw [lookup_collect] at hr
    obtain ⟨hmem, hle, -⟩ := foldl_keepMin_some _ _ _ hr
    have hrc : r ∈ candidates l k := by
      rcases hmem with hh | hh
      · simp at hh
      · exact hh
    obtain ⟨s, hs, hok, hk, he⟩ := (mem_candidates _ _ _).mp hrc
    refine ⟨⟨s, hs, hok, hk, ?_⟩, ?_⟩
    · rw [← he]; rfl
    · intro t ht htok htk
      have hmt : t.entry ∈ candidates l k :=
        (mem_candidates _ _ _).mpr ⟨t, ht, htok, htk, rfl⟩
      simpa [Submission.entry_ts] using hle _ hmt
  · exact (collect_filter_ok l []).symm

/-- C1 witness: on a one-submission stream the reducer stores that
submission's timestamp, which realizes and bounds the minimum. -/
theorem c1_first_ac_witness :
    (∃ s ∈ [(⟨some 7, some "OK", some ⟨some 1, some "A", some "p", [], none⟩⟩ :
        Submission)], s.isOK = true ∧ s.key = "1-A" ∧ s.ts = (7 : Int))
    ∧ ∀ s ∈ [(⟨some 7, some "OK", some ⟨some 1, some "A", some "p", [], none⟩⟩ :
        Submission)], s.isOK = true → s.key = "1-A" → (7 : Int) ≤ s.ts := by
  have h := (c1_first_ac
    [⟨some 7, some "OK", some ⟨some 1, some "A", some "p", [], none⟩⟩]
    "1-A").2.1 ⟨7, [], "p", none⟩ (by decide)
  exact h

/-- C2 counterexample: two OK submissions for the same problem with equal
timestamps but different names; swapping them changes the stored tuple, so
the reducer's output is not invariant under all permutations. -/
theorem c2_counterexample :
    List.Perm
      [(⟨some 100, some "OK", some ⟨some 1, some "A", some "x", [], none⟩⟩ :
          Submission),
        ⟨some 100, some "OK", some ⟨some 1, some "A", some "y", [], none⟩⟩]
      [(⟨some 100, some "OK", some ⟨some 1, some "A", some "y", [], none⟩⟩ :
          Submission),
        ⟨some 100, some "OK", some ⟨some 1, some "A", some "x", [], none⟩⟩]
    ∧ lookupA (collect_first_ac_per_problem
        [⟨some 100, some "OK", some ⟨some 1, some "A", some "x", [], none⟩⟩,
          ⟨some 100, some "OK", some ⟨some 1, some "A", some "y", [], none⟩⟩])
        "1-A" ≠
      lookupA (collect_first_ac_per_problem
        [⟨some 100, some "OK", some ⟨some 1, some "A", some "y", [], none⟩⟩,
          ⟨some 100, some "OK", some ⟨some 1, some "A", some "x", [], none⟩⟩])
        "1-A" :=
  ⟨List.Perm.swap _ _ _, by decide⟩

/-- C2 (amended): the reducer's output is invariant under permutation of
the stream provided any two OK submissions with the same problem key and
equal timestamps carry the same stored tuple (always true of real remote
data, where a problem's metadata is a function of its key). -/
theorem c2_reorder (l l' : List Submission) (hp : l.Perm l')
    (hcoh : ∀ s ∈ l, ∀ t ∈ l, s.isOK = true → t.isOK = true →
      s.key = t.key → s.ts = t.ts → s.entry = t.entry) :
    ∀ k, lookupA (collect_first_ac_per_problem l) k =
      lookupA (collect_first_ac_per_problem l') k := by
  intro k
  rw [lookup_collect, lookup_collect]
  apply foldl_keepMin_perm
  · exact (hp.filter _).map _
  · intro e he e' he' hts
    obtain ⟨s, hs, hok, hk, hes⟩ := (mem_candidates _ _ _).mp he
    obtain ⟨t, ht, htok, htk, het⟩ := (mem_candidates _ _ _).mp he'
    rw [← hes, ← het]
    apply hcoh s hs t ht hok htok (hk.trans htk.symm)
    have : s.entry.ts = t.entry.ts := by rw [hes, het, hts]
    simpa [Submission.entry_ts] using this

/-- C2 witness: a two-element stream with distinct keys, swapped. -/
theorem c2_reorder_witness :
    lookupA (collect_first_ac_per_problem
      [⟨some 5, some "OK", some ⟨some 1, some "A", some "x", [], none⟩⟩,
        ⟨some 9, some "OK", some ⟨some 1, some "B", some "y", [], none⟩⟩])
      "1-A" =
    lookupA (collect_first_ac_per_problem
      [⟨some 9, some "OK", some ⟨some 1, some "B", some "y", [], none⟩⟩,
        ⟨some 5, some "OK", some ⟨some 1, some "A", some "x", [], none⟩⟩])
      "1-A" :=
  c2_reorder _ _ (List.Perm.swap _ _ _) (by decide) "1-A"

/-- Shared helper: a page whose oldest timestamp is below the `from` bound
ends the loop after being processed. -/
theorem fetchLoop_stop_of_oldest_lt (src : Nat → List Submission) (f : Int)
    (toTs : Option Int) (n startIdx : Nat) (m : Int)
    (hold : pageOldest (src startIdx) = some m) (hm : m < f) :
    fetchLoop src (some f) toTs (n + 1) startIdx =
      ((src startIdx).filter (inWindow (some f) toTs), [startIdx]) := by
  have hne : (src startIdx).isEmpty = false := by
    cases hpage : src startIdx with
    | nil => rw [hpage] at hold; simp [pageOldest] at hold
    | cons a tl => rfl
  apply fetchLoop_stop
  · exact hne
  · unfold stopEarly
    rw [hold]
    simpa using hm

/-- C3: when the oldest timestamp of the page fetched at `startIdx` is
strictly below the `from` bound, the loop emits exactly that page's
in-window submissions and issues no further request. -/
theorem c3_early_stop (src : Nat → List Submission) (f : Int)
    (toTs : Option Int) (n startIdx : Nat) (m : Int)
    (hold : pageOldest (src startIdx) = some m) (hm : m < f) :
    fetchLoop src (some f) toTs (n + 1) startIdx =
      ((src startIdx).filter (inWindow (some f) toTs), [startIdx]) :=
  fetchLoop_stop_of_oldest_lt src f toTs n startIdx m hold hm

/-- C3 witness: a one-page source where the single submission predates the
`from` bound; only offset 1 is requested. -/
theorem c3_early_stop_witness :
    fetchLoop (fun i => if i = 1 then [⟨some 3, some "OK", none⟩] else [])
      (some 10) none 5 1 = ([], [1]) :=
  (c3_early_stop (fun i => if i = 1 then [⟨some 3, some "OK", none⟩] else [])
    10 none 4 1 3 (by decide) (by decide)).trans (by decide)

/-- Any successful run of `fetch_submissions_in_period` is the loop run
from offset 1 with the given budget. -/
theorem fetch_ok_eq (src : Nat → List Submission) (fromTs toTs : Option Int)
    (maxReq : Nat) (out : List Submission × List Nat)
    (hout : fetch_submissions_in_period src fromTs toTs maxReq = .ok out) :
    out = fetchLoop src fromTs toTs maxReq 1 := by
  unfold fetch_submissions_in_period at hout
  by_cases hr : rangeInvalid fromTs toTs
  · rw [if_pos hr] at hout
    cases hout
  · rw [if_neg hr] at hout
    injection hout with h
    exact h.symm

/-- C4 counterexample: the `max_requests` parameter of
`fetch_submissions_in_period` defaults to 100 in the source, not 200. -/
theorem c4_counterexample :
    defaultMaxRequests = 100 ∧ defaultMaxRequests ≠ 200 := by decide

/-- C4 (amended): the fetch issues at most `max_requests` page requests and
then stops; the parameter's default in the fetcher's signature is 100, and
the GUI fetch thread configures 200 at its call site. -/
theorem c4_request_budget (src : Nat → List Submission)
    (fromTs toTs : Option Int) (maxReq startIdx : Nat) :
    (fetchLoop src fromTs toTs maxReq startIdx).2.length ≤ maxReq
    ∧ defaultMaxRequests = 100
    ∧ fetchThreadMaxRequests = 200
    ∧ ∀ out, fetch_submissions_in_period src fromTs toTs maxReq = .ok out →
        out.2.length ≤ maxReq := by
  refine ⟨fetchLoop_requests_le src fromTs toTs maxReq startIdx, rfl, rfl, ?_⟩
  intro out hout
  rw [fetch_ok_eq src fromTs toTs maxReq out hout]
  exact fetchLoop_requests_le src fromTs toTs maxReq 1

/-- C4 witness: a concrete successful fetch whose request count respects
the budget. -/
theorem c4_request_budget_witness :
    (fetchLoop (fun _ => [⟨some 4, some "OK", none⟩]) none none 3 1).2.length
      ≤ 3 :=
  (c4_request_budget (fun _ => [⟨some 4, some "OK", none⟩]) none none 3 1).2.2.2
    (fetchLoop (fun _ => [⟨some 4, some "OK", none⟩]) none none 3 1) rfl

/-- C5: the run consumes the outcome of the auxiliary `user.info` lookup
inside its own try/except: on failure the solved map and tag report are
still produced exactly as on success, and the two user-rating fields are
absent. -/
theorem c5_aux_lookup_swallowed (subs : List Submission) (msg : String) :
    (fetchThreadRun subs (.error msg)).solved = collect_first_ac_per_problem subs
    ∧ (fetchThreadRun subs (.error msg)).report =
        tag_report ((collect_first_ac_per_problem subs).map Prod.snd)
    ∧ (fetchThreadRun subs (.error msg)).userRating = none
    ∧ (fetchThreadRun subs (.error msg)).userMaxRating = none
    ∧ ∀ info : UserInfo,
        (fetchThreadRun subs (.ok info)).solved =
          (fetchThreadRun subs (.error msg)).solved
        ∧ (fetchThreadRun subs (.ok info)).report =
          (fetchThreadRun subs (.error msg)).report :=
  ⟨rfl, rfl, rfl, rfl, fun _ => ⟨rfl, rfl⟩⟩

/-- C7: a resolved window with `from > to` makes the fetch fail with the
range error before anything else; no submissions, no requests. -/
theorem c7_invalid_range (src : Nat → List Submission) (f t : Int)
    (maxReq : Nat) (h : f > t) :
    fetch_submissions_in_period src (some f) (some t) maxReq =
      .error "From date must be <= To date" := by
  unfold fetch_submissions_in_period
  rw [if_pos]
  show rangeInvalid (some f) (some t) = true
  simpa [rangeInvalid] using h

/-- C7 witness: from = 1 s, to = 0 s. -/
theorem c7_invalid_range_witness :
    fetch_submissions_in_period (fun _ => []) (some 1) (some 0) 5 =
      .error "From date must be <= To date" :=
  c7_invalid_range (fun _ => []) 1 0 5 (by decide)

/-- C9 counterexample: with the `from` bound set to epoch second 0 (the
window starting 1970-01-01), a submission lacking `creationTimeSeconds` is
not excluded from the emitted window: the fetch emits it. -/
theorem c9_counterexample :
    inWindow (some 0) none (⟨none, some "OK", none⟩ : Submission) = true
    ∧ (fetchLoop
        (fun i => if i = 1 then [(⟨none, some "OK", none⟩ : Submission)]
          else [])
        (some 0) none 5 1).1 = [⟨none, some "OK", none⟩] := by
  exact ⟨rfl, by decide⟩

/-- C9 (amended): a submission without `creationTimeSeconds` is treated as
having timestamp 0 throughout the core. With a positive `from` bound it is
excluded from the emitted window; when every submission of its page has a
nonnegative timestamp it is the page's oldest (0), and a positive `from`
bound then makes its presence terminate the fetch after that page; in the
reducer an accepted such submission forces a record for its key whose
timestamp is at most 0 — exactly 0 when all stream timestamps are
nonnegative — so it wins every strictly-earlier comparison against
positive stored timestamps. -/
theorem c9_missing_ts (s : Submission) (hcts : s.creationTimeSeconds = none) :
    s.ts = 0
    ∧ (∀ (f : Int) (toTs : Option Int), 0 < f →
        inWindow (some f) toTs s = false)
    ∧ (∀ page, s ∈ page → (∀ u ∈ page, 0 ≤ u.ts) →
        pageOldest page = some 0)
    ∧ (∀ (src : Nat → List Submission) (f : Int) (toTs : Option Int)
        (n startIdx : Nat), s ∈ src startIdx →
        (∀ u ∈ src startIdx, 0 ≤ u.ts) → 0 < f →
        fetchLoop src (some f) toTs (n + 1) startIdx =
          ((src startIdx).filter (inWindow (some f) toTs), [startIdx]))
    ∧ (∀ l, s ∈ l → s.isOK = true →
        ∃ r, lookupA (collect_first_ac_per_problem l) s.key = some r ∧
          r.ts ≤ 0 ∧ ((∀ u ∈ l, 0 ≤ u.ts) → r.ts = 0)) := by
  have hts0 : s.ts = 0 := by simp [Submission.ts, hcts]
  have holdest : ∀ page, s ∈ page → (∀ u ∈ page, 0 ≤ u.ts) →
      pageOldest page = some 0 := by
    intro page hs hpos
    cases hpage : page with
    | nil => rw [hpage] at hs; simp at hs
    | cons u tl =>
        rw [← hpage]
        have hsome : (pageOldest page).isSome = true := by
          rw [hpage]; exact pageOldest_cons_isSome u tl
        obtain ⟨m, hm⟩ := Option.isSome_iff_exists.mp hsome
        obtain ⟨⟨w, hw, hwts⟩, hle⟩ := pageOldest_some page m hm
        have h1 : m ≤ 0 := hts0 ▸ hle s hs
        have h2 : 0 ≤ m := hwts ▸ hpos w hw
        rw [hm, le_antisymm h1 h2]
  refine ⟨hts0, ?_, holdest, ?_, ?_⟩
  · intro f toTs hf
    simp [inWindow, hts0, not_le.mpr hf]
  · intro src f toTs n startIdx hs hpos hf
    exact fetchLoop_stop_of_oldest_lt src f toTs n startIdx 0
      (holdest (src startIdx) hs hpos) hf
  · intro l hl hok
    have hmem : s.entry ∈ candidates l s.key :=
      (mem_candidates _ _ _).mpr ⟨s, hl, hok, rfl, rfl⟩
    cases hfold : (candidates l s.key).foldl keepMin none with
    | none =>
        exfalso
        have : candidates l s.key = [] := (foldl_keepMin_eq_none _).mp hfold
        rw [this] at hmem
        simp at hmem
    | some r =>
        obtain ⟨hrmem, hle, -⟩ := foldl_keepMin_some _ _ _ hfold
        have hr1 : r.ts ≤ 0 := by
          have := hle s.entry hmem
          simpa [Submission.entry_ts, hts0] using this
        refine ⟨r, ?_, hr1, ?_⟩
        · rw [lookup_collect]; exact hfold
        · intro hpos
          have hrc : r ∈ candidates l s.key := by
            rcases hrmem with hh | hh
            · simp at hh
            · exact hh
          obtain ⟨t, ht, -, -, het⟩ := (mem_candidates _ _ _).mp hrc
          have : 0 ≤ r.ts := by
            have h0 := hpos t ht
            rw [← het, Submission.entry_ts]
            exact h0
          exact le_antisymm hr1 this

theorem parseDateFields_midnight (ys ms ds : List Char) (dt : DateTimeUTC)
    (h : parseDateFields ys ms ds = some dt) :
    dt.hour = 0 ∧ dt.minute = 0 ∧ dt.second = 0 := by
  unfold parseDateFields at h
  split at h
  · split at h
    · split at h
      · cases Option.some.inj h
        exact ⟨rfl, rfl, rfl⟩
      · simp at h
    · simp at h
  · simp at h

theorem strptimeYMD_midnight (cs : List Char) (dt : DateTimeUTC)
    (h : strptimeYMD cs = some dt) :
    dt.hour = 0 ∧ dt.minute = 0 ∧ dt.second = 0 := by
  unfold strptimeYMD at h
  split at h
  · exact parseDateFields_midnight _ _ _ _ h
  · simp at h

/-- On a length-10 input the ISO parser accepts exactly the bare calendar
dates the `strptime` branch does. -/
theorem pyFromIso_len10 (cs : List Char) (h : cs.length = 10) :
    pyFromIso cs = strptimeYMD cs := by
  have htake : cs.take 10 = cs := List.take_of_length_le (le_of_eq h)
  have hdrop : cs.drop 10 = [] := List.drop_eq_nil_of_le (le_of_eq h)
  unfold pyFromIso
  rw [htake, hdrop]
  cases hst : strptimeYMD cs with
  | none => rfl
  | some d => rfl

/-- Any accepted input that strips to 10 characters parses to midnight. -/
theorem parse_len10_midnight (s : String) (dt : DateTimeUTC)
    (h : parse_date_maybe s = .ok (some dt))
    (hlen : (stripChars s.data).length = 10) :
    dt.hour = 0 ∧ dt.minute = 0 ∧ dt.second = 0 := by
  unfold parse_date_maybe at h
  by_cases hemp : stripChars s.data = []
  · rw [hemp] at hlen
    exact absurd hlen (by decide)
  · rw [if_neg hemp] at h
    by_cases hcond : (stripChars s.data).length = 10
        ∧ countDash (stripChars s.data) = 2
    · rw [if_pos hcond] at h
      cases hst : strptimeYMD (stripChars s.data) with
      | none => rw [hst] at h; cases h
      | some dt' =>
          rw [hst] at h
          injection h with h1
          cases Option.some.inj h1
          exact strptimeYMD_midnight _ _ hst
    · rw [if_neg hcond] at h
      cases hiso : pyFromIso (stripChars s.data) with
      | none => rw [hiso] at h; cases h
      | some dt' =>
          rw [hiso] at h
          have hst : strptimeYMD (stripChars s.data) = some dt' := by
            rw [← pyFromIso_len10 _ hlen]
            exact hiso
          injection h with h1
          cases Option.some.inj h1
          exact strptimeYMD_midnight _ _ hst

/-- C6: the window resolved from the strings "2024-01-01"/"2024-01-01" is
the whole UTC day; in general a `to` input accepted with stripped length 10
(a bare calendar date, necessarily midnight) is widened to 23:59:59 of its
day, while any other accepted `to` input (in particular every full ISO
date-time, whose stripped length exceeds 10) is left unadjusted. -/
theorem c6_end_of_day :
    (resolveWindowGiven "2024-01-01" "2024-01-01" =
      .ok (some ⟨2024, 1, 1, 0, 0, 0⟩, some ⟨2024, 1, 1, 23, 59, 59⟩))
    ∧ (∀ (s : String) (dt : DateTimeUTC),
        parse_date_maybe s = .ok (some dt) →
        (stripChars s.data).length = 10 →
        endOfDayAdjust s dt = ⟨dt.year, dt.month, dt.day, 23, 59, 59⟩)
    ∧ (∀ (s : String) (dt : DateTimeUTC),
        parse_date_maybe s = .ok (some dt) →
        (stripChars s.data).length ≠ 10 →
        endOfDayAdjust s dt = dt) := by
  refine ⟨rfl, ?_, ?_⟩
  · intro s dt h hlen
    obtain ⟨h1, h2, h3⟩ := parse_len10_midnight s dt h hlen
    unfold endOfDayAdjust
    rw [if_pos ⟨h1, h2, h3, hlen⟩]
  · intro s dt h hlen
    unfold endOfDayAdjust
    rw [if_neg]
    rintro ⟨-, -, -, h4⟩
    exact hlen h4

/-- C6 witness: a bare date is widened to end of day, a full ISO date-time
at 12:30:00 is untouched. -/
theorem c6_end_of_day_witness :
    endOfDayAdjust "2024-03-05" ⟨2024, 3, 5, 0, 0, 0⟩ =
      ⟨2024, 3, 5, 23, 59, 59⟩
    ∧ endOfDayAdjust "2024-03-05T12:30:00" ⟨2024, 3, 5, 12, 30, 0⟩ =
      ⟨2024, 3, 5, 12, 30, 0⟩ :=
  ⟨c6_end_of_day.2.1 "2024-03-05" ⟨2024, 3, 5, 0, 0, 0⟩ rfl (by decide),
    c6_end_of_day.2.2 "2024-03-05T12:30:00" ⟨2024, 3, 5, 12, 30, 0⟩
      rfl (by decide)⟩

/-- C9 witness: a positive `from` bound excludes the timestampless
submission, and the reducer stores timestamp 0 for it. -/
theorem c9_missing_ts_witness :
    inWindow (some 5) none (⟨none, some "OK",
      some ⟨some 1, some "A", some "p", [], none⟩⟩ : Submission) = false :=
  (c9_missing_ts ⟨none, some "OK", some ⟨some 1, some "A", some "p", [], none⟩⟩
    rfl).2.1 5 none (by decide)

/-! ### Aggregation lemmas -/

theorem aggregate_foldl_proj (rs : List SolvedRecord) (st : AggState) :
    rs.foldl aggStep st =
      ⟨rs.foldl countsStep st.tagCounts, rs.foldl ratingsStep st.tagRatings,
        rs.foldl allStep st.allRatings⟩ := by
  induction rs generalizing st with
  | nil => rfl
  | cons r tl ih =>
      simp only [List.foldl_cons]
      rw [ih]
      rfl

theorem aggregate_counts (rs : List SolvedRecord) :
    (aggregate rs).tagCounts = rs.foldl countsStep [] := by
  unfold aggregate
  rw [aggregate_foldl_proj]

theorem aggregate_ratings (rs : List SolvedRecord) :
    (aggregate rs).tagRatings = rs.foldl ratingsStep [] := by
  unfold aggregate
  rw [aggregate_foldl_proj]

theorem aggregate_all (rs : List SolvedRecord) :
    (aggregate rs).allRatings = rs.foldl allStep [] := by
  unfold aggregate
  rw [aggregate_foldl_proj]

theorem lookupCount_bumpCount (m : List (String × Nat)) (t k : String) :
    lookupCount (bumpCount m t) k =
      lookupCount m k + (if t = k then 1 else 0) := by
  induction m with
  | nil =>
      by_cases h : t = k <;> simp [bumpCount, lookupCount, h]
  | cons hd tl ih =>
      obtain ⟨k0, c⟩ := hd
      by_cases h0 : k0 = t
      · subst h0
        by_cases hk : k0 = k
        · subst hk
          simp [bumpCount, lookupCount]
        · simp [bumpCount, lookupCount, hk]
      · by_cases hk : k0 = k
        · subst hk
          have htk : ¬(t = k0) := fun hh => h0 hh.symm
          simp [bumpCount, lookupCount, h0, htk]
        · simp [bumpCount, lookupCount, h0, hk, ih]

theorem lookupCount_foldl_bump (tags : List String) (c : List (String × Nat))
    (k : String) :
    lookupCount (tags.foldl bumpCount c) k =
      lookupCount c k + tags.count k := by
  induction tags generalizing c with
  | nil => simp
  | cons t tl ih =>
      simp only [List.foldl_cons]
      rw [ih, lookupCount_bumpCount]
      by_cases h : t = k <;> (simp [List.count_cons, h]; try omega)

theorem lookupCount_foldl_countsStep (rs : List SolvedRecord)
    (c : List (String × Nat)) (k : String) :
    lookupCount (rs.foldl countsStep c) k =
      lookupCount c k + (rs.map (fun r => r.tags.count k)).sum := by
  induction rs generalizing c with
  | nil => simp
  | cons r tl ih =>
      simp only [List.foldl_cons, List.map_cons, List.sum_cons]
      rw [ih]
      unfold countsStep
      rw [lookupCount_foldl_bump]
      omega

theorem bumpCount_keys (m : List (String × Nat)) (t : String) :
    (bumpCount m t).map Prod.fst =
      if t ∈ m.map Prod.fst then m.map Prod.fst
      else m.map Prod.fst ++ [t] := by
  induction m with
  | nil => simp [bumpCount]
  | cons hd tl ih =>
      obtain ⟨k, c⟩ := hd
      by_cases h : k = t
      · subst h
        simp [bumpCount, List.mem_cons]
      · have hne : ¬(t = k) := fun hh => h hh.symm
        simp only [bumpCount, if_neg h, List.map_cons, ih, List.mem_cons]
        by_cases hm : t ∈ tl.map Prod.fst
        · simp [hm, hne]
        · simp [hm, hne]

theorem bumpCount_keys_nodup (m : List (String × Nat)) (t : String)
    (h : (m.map Prod.fst).Nodup) :
    ((bumpCount m t).map Prod.fst).Nodup := by
  rw [bumpCount_keys]
  by_cases hm : t ∈ m.map Prod.fst
  · simpa [hm] using h
  · rw [if_neg hm, List.nodup_append]
    refine ⟨h, List.nodup_singleton t, ?_⟩
    intro a ha hat
    rw [List.mem_singleton] at hat
    exact hm (hat ▸ ha)

theorem foldl_bump_keys_nodup (tags : List String) (c : List (String × Nat))
    (h : (c.map Prod.fst).Nodup) :
    ((tags.foldl bumpCount c).map Prod.fst).Nodup := by
  induction tags generalizing c with
  | nil => exact h
  | cons t tl ih => exact ih _ (bumpCount_keys_nodup c t h)

theorem aggregate_counts_nodup (rs : List SolvedRecord) :
    (((aggregate rs).tagCounts).map Prod.fst).Nodup := by
  rw [aggregate_counts]
  have hgen : ∀ c : List (String × Nat), (c.map Prod.fst).Nodup →
      ((rs.foldl countsStep c).map Prod.fst).Nodup := by
    induction rs with
    | nil => intro c h; exact h
    | cons r tl ih =>
        intro c h
        exact ih _ (foldl_bump_keys_nodup r.tags c h)
  exact hgen [] (by simp)

theorem mem_bumpCount_keys (m : List (String × Nat)) (t k : String) :
    k ∈ (bumpCount m t).map Prod.fst ↔ k ∈ m.map Prod.fst ∨ k = t := by
  rw [bumpCount_keys]
  by_cases hm : t ∈ m.map Prod.fst
  · rw [if_pos hm]
    constructor
    · exact Or.inl
    · rintro (h | h)
      · exact h
      · exact h ▸ hm
  · rw [if_neg hm]
    simp

theorem mem_foldl_bump_keys (tags : List String) (c : List (String × Nat))
    (k : String) :
    k ∈ (tags.foldl bumpCount c).map Prod.fst ↔
      k ∈ c.map Prod.fst ∨ k ∈ tags := by
  induction tags generalizing c with
  | nil => simp
  | cons t tl ih =>
      simp only [List.foldl_cons]
      rw [ih, mem_bumpCount_keys, List.mem_cons]
      tauto

theorem mem_aggregate_keys (rs : List SolvedRecord) (k : String) :
    k ∈ ((aggregate rs).tagCounts).map Prod.fst ↔ ∃ r ∈ rs, k ∈ r.tags := by
  rw [aggregate_counts]
  have hgen : ∀ c : List (String × Nat),
      (k ∈ (rs.foldl countsStep c).map Prod.fst ↔
        k ∈ c.map Prod.fst ∨ ∃ r ∈ rs, k ∈ r.tags) := by
    induction rs with
    | nil => intro c; simp
    | cons r tl ih =>
        intro c
        simp only [List.foldl_cons]
        rw [ih]
        unfold countsStep
        rw [mem_foldl_bump_keys]
        simp only [List.mem_cons]
        constructor
        · rintro ((hc | hr) | ⟨w, hw, hkw⟩)
          · exact Or.inl hc
          · exact Or.inr ⟨r, Or.inl rfl, hr⟩
          · exact Or.inr ⟨w, Or.inr hw, hkw⟩
        · rintro (hc | ⟨w, hw | hw, hkw⟩)
          · exact Or.inl (Or.inl hc)
          · exact Or.inl (Or.inr (hw ▸ hkw))
          · exact Or.inr ⟨w, hw, hkw⟩
  rw [hgen]
  simp

theorem tagLineFor_fields (rats : List (String × List ℚ)) (tc : String × Nat) :
    (tagLineFor rats tc).tag = tc.1 ∧ (tagLineFor rats tc).count = tc.2 := by
  cases hmin : listMin (lookupRatings rats tc.1) with
  | none =>
      cases hmax : listMax (lookupRatings rats tc.1) with
      | none => simp [tagLineFor, hmin, hmax]
      | some mx => simp [tagLineFor, hmin, hmax]
  | some mn =>
      cases hmax : listMax (lookupRatings rats tc.1) with
      | none => simp [tagLineFor, hmin, hmax]
      | some mx => simp [tagLineFor, hmin, hmax]

theorem tagLineFor_stats (rats : List (String × List ℚ)) (tc : String × Nat) :
    (tagLineFor rats tc).minR = (listMin (lookupRatings rats tc.1)).map pyTrunc
    ∧ (tagLineFor rats tc).maxR = (listMax (lookupRatings rats tc.1)).map pyTrunc
    ∧ (tagLineFor rats tc).avgR = meanNA (lookupRatings rats tc.1) := by
  cases hrl : lookupRatings rats tc.1 with
  | nil => simp [tagLineFor, meanNA, hrl, listMin, listMax]
  | cons x xs => simp [tagLineFor, meanNA, hrl, listMin, listMax]

/-- C8 counterexample: a tag whose only rating is the non-integral 1/2 is
reported with Min = 0 (the source truncates with `int(min(rlist))`), which
is not the minimum 1/2 of its rating list. -/
theorem c8_counterexample :
    tag_report [⟨0, ["dp"], "p", some (RVal.num (mkRat 1 2))⟩] =
      [⟨"dp", 1, some 0, some 0, some (mkRat 1 2)⟩]
    ∧ listMin (lookupRatings
        (aggregate [⟨0, ["dp"], "p", some (RVal.num (mkRat 1 2))⟩]).tagRatings
        "dp") =
      some (mkRat 1 2)
    ∧ ((0 : Int) : ℚ) ≠ mkRat 1 2 :=
  ⟨by decide, by decide, by decide⟩

/-- C8 (amended): the tag report lists exactly the tags occurring in the
solved records, sorted by descending count with ties broken by ascending
lexicographic tag name; a tag with at least one rating reports its
minimum and maximum truncated to integers (`int(...)`) and its mean
rounded to one decimal place, while a tag with no ratings reports all
three statistics as unavailable. -/
theorem c8_tag_report (records : List SolvedRecord) :
    List.Pairwise
      (fun a b : TagLine =>
        b.count < a.count ∨ (a.count = b.count ∧ a.tag < b.tag))
      (tag_report records)
    ∧ (∀ ln ∈ tag_report records,
        ln.minR =
          (listMin (lookupRatings (aggregate records).tagRatings ln.tag)).map
            pyTrunc
        ∧ ln.maxR =
          (listMax (lookupRatings (aggregate records).tagRatings ln.tag)).map
            pyTrunc
        ∧ ln.avgR = meanNA (lookupRatings (aggregate records).tagRatings ln.tag))
    ∧ (∀ t : String,
        (∃ ln ∈ tag_report records, ln.tag = t) ↔ ∃ r ∈ records, t ∈ r.tags) := by
  refine ⟨?_, ?_, ?_⟩
  · simp only [tag_report]
    rw [List.pairwise_map]
    have hsorted : List.Pairwise tagOrder
        (sortTagCounts (aggregate records).tagCounts) :=
      List.sorted_insertionSort tagOrder _
    have hnd : ((sortTagCounts (aggregate records).tagCounts).map
        Prod.fst).Nodup := by
      have hperm := List.perm_insertionSort tagOrder
        (aggregate records).tagCounts
      exact (aggregate_counts_nodup records).perm (hperm.map Prod.fst).symm
    have hne : List.Pairwise (fun a b : String × Nat => a.1 ≠ b.1)
        (sortTagCounts (aggregate records).tagCounts) := by
      rw [List.Nodup, List.pairwise_map] at hnd
      exact hnd
    refine List.Pairwise.imp ?_ (hsorted.and hne)
    rintro a b ⟨hord, hnefst⟩
    obtain ⟨hta, hca⟩ := tagLineFor_fields (aggregate records).tagRatings a
    obtain ⟨htb, hcb⟩ := tagLineFor_fields (aggregate records).tagRatings b
    rw [hta, htb, hca, hcb]
    rcases hord with h | ⟨h1, h2⟩
    · exact Or.inl h
    · exact Or.inr ⟨h1, lt_of_le_of_ne h2 hnefst⟩
  · intro ln hln
    simp only [tag_report] at hln
    obtain ⟨tc, htc, rfl⟩ := List.mem_map.mp hln
    obtain ⟨hminR, hmaxR, havgR⟩ :=
      tagLineFor_stats (aggregate records).tagRatings tc
    rw [(tagLineFor_fields (aggregate records).tagRatings tc).1]
    exact ⟨hminR, hmaxR, havgR⟩
  · intro t
    constructor
    · rintro ⟨ln, hln, rfl⟩
      simp only [tag_report] at hln
      obtain ⟨tc, htc, rfl⟩ := List.mem_map.mp hln
      have hmem : tc ∈ (aggregate records).tagCounts :=
        (List.perm_insertionSort tagOrder _).mem_iff.mp htc
      have hk : (tagLineFor (aggregate records).tagRatings tc).tag ∈
          ((aggregate records).tagCounts).map Prod.fst := by
        rw [(tagLineFor_fields (aggregate records).tagRatings tc).1]
        exact List.mem_map_of_mem _ hmem
      exact (mem_aggregate_keys records _).mp hk
    · intro h
      have hk : t ∈ ((aggregate records).tagCounts).map Prod.fst :=
        (mem_aggregate_keys records t).mpr h
      obtain ⟨tc, htc, rfl⟩ := List.mem_map.mp hk
      refine ⟨tagLineFor (aggregate records).tagRatings tc, ?_,
        (tagLineFor_fields (aggregate records).tagRatings tc).1⟩
      simp only [tag_report]
      exact List.mem_map_of_mem _
        ((List.perm_insertionSort tagOrder _).symm.mem_iff.mp htc)

/-- C8 witness: a one-record report with a rated tag, with the statistics
equations instantiated at its line. -/
theorem c8_tag_report_witness :
    (⟨"dp", 1, some 800, some 800, some 800⟩ : TagLine).minR =
      (listMin (lookupRatings
        (aggregate [⟨0, ["dp"], "p", some (RVal.num 800)⟩]).tagRatings
        "dp")).map pyTrunc :=
  ((c8_tag_report [⟨0, ["dp"], "p", some (RVal.num 800)⟩]).2.1
    ⟨"dp", 1, some 800, some 800, some 800⟩ (by decide)).1

/-- C10: a record whose rating is present but on which `float()` raises is
aggregated exactly as if the rating were absent: the whole aggregation
state is unchanged by replacing the rating with `None`, every one of its
tags still has its count incremented (by the tag's multiplicity in the
record), and neither the per-tag rating lists nor the global rating list
receive anything from it. -/
theorem c10_bad_rating (pre post : List SolvedRecord) (ts : Int)
    (tags : List String) (nm : String) (v : RVal) (hv : v.toNum = none) :
    aggregate (pre ++ ⟨ts, tags, nm, some v⟩ :: post) =
      aggregate (pre ++ ⟨ts, tags, nm, none⟩ :: post)
    ∧ (∀ t, lookupCount
          (aggregate (pre ++ ⟨ts, tags, nm, some v⟩ :: post)).tagCounts t =
        lookupCount (aggregate (pre ++ post)).tagCounts t + tags.count t)
    ∧ (aggregate (pre ++ ⟨ts, tags, nm, some v⟩ :: post)).tagRatings =
        (aggregate (pre ++ post)).tagRatings
    ∧ (aggregate (pre ++ ⟨ts, tags, nm, some v⟩ :: post)).allRatings =
        (aggregate (pre ++ post)).allRatings := by
  have hrv : ratingValOf ⟨ts, tags, nm, some v⟩ = none := by
    simp [ratingValOf, hv]
  refine ⟨?_, ?_, ?_, ?_⟩
  · unfold aggregate
    rw [List.foldl_append, List.foldl_append, List.foldl_cons, List.foldl_cons]
    have hstep : ∀ st : AggState,
        aggStep st ⟨ts, tags, nm, some v⟩ = aggStep st ⟨ts, tags, nm, none⟩ := by
      intro st
      simp only [aggStep, ratingsStep, allStep, hrv]
      rfl
    rw [hstep]
  · intro t
    rw [aggregate_counts, aggregate_counts,
      lookupCount_foldl_countsStep, lookupCount_foldl_countsStep,
      List.map_append, List.map_append, List.map_cons,
      List.sum_append, List.sum_append, List.sum_cons]
    have htags : (⟨ts, tags, nm, some v⟩ : SolvedRecord).tags.count t =
        tags.count t := rfl
    rw [htags]
    omega
  · rw [aggregate_ratings, aggregate_ratings,
      List.foldl_append, List.foldl_append, List.foldl_cons]
    have hid : ratingsStep (pre.foldl ratingsStep []) ⟨ts, tags, nm, some v⟩ =
        pre.foldl ratingsStep [] := by
      simp only [ratingsStep, hrv]
    rw [hid]
  · rw [aggregate_all, aggregate_all,
      List.foldl_append, List.foldl_append, List.foldl_cons]
    have hid : allStep (pre.foldl allStep []) ⟨ts, tags, nm, some v⟩ =
        pre.foldl allStep [] := by
      simp only [allStep, hrv]
    rw [hid]

/-- C10 witness: a single record with an unconvertible rating aggregates
identically to the same record with no rating. -/
theorem c10_bad_rating_witness :
    aggregate [(⟨1, ["dp"], "p", some RVal.bad⟩ : SolvedRecord)] =
      aggregate [⟨1, ["dp"], "p", none⟩] :=
  (c10_bad_rating [] [] 1 ["dp"] "p" RVal.bad rfl).1

end CFStats
